import Mathlib

/-!
# Verification of the PAS emulator (piotrcurious/PAS_emulator)

Shallow embedding of the three Arduino sketches:

* `src/v3_emulator_buzz.ino` — namespace `V3`: lookup-table throttle curve,
  explicit `PASState` record, `updatePASTimings`, `updatePASSignal`,
  `processThrottleInput`, and the `loop` pass.
* `src/emulator_LUTthrottle.ino` — namespace `LUTv`: lookup-table curve with the
  state machine inlined in `loop`.
* `src/unnamed/part_000` — namespace `Fixed`: fixed two-point calibration
  (`map` + `constrain`) with the state machine inlined in `loop`.

Modelling conventions:

* `unsigned long` (32-bit on the AVR targets of these sketches) is modelled as
  `Nat` together with explicit reduction modulo `ULONG_MOD = 2 ^ 32` where the
  C code relies on unsigned wraparound (the `currentMicros - lastToggleMicros`
  subtraction).  Products such as `totalPeriodMicros * DUTY_CYCLE` never exceed
  `25_000_000 < 2 ^ 32` (the period is at most `1_000_000`), so no reduction is
  inserted there.
* C `long` values (throttle samples, table entries, frequencies) are modelled
  as `Int`; C integer division on `long` truncates toward zero and is modelled
  by `Int.tdiv`.
* The interpolation routine computes
  `float result = y0 + ((inputValue - x0) * (y1 - y0) / (x1 - x0));`
  and truncates toward zero on the cast `(long)result`.  On the value ranges of
  this repository (ADC samples `0..1023`, table outputs `0..25`) every float
  intermediate is an exactly representable dyadic rational, so the computation
  is exact: the cast result is the truncation toward zero of the exact rational
  `y0 + (v - x0)·(y1 - y0)/(x1 - x0) = (y0·(x1 - x0) + (v - x0)·(y1 - y0))/(x1 - x0)`,
  i.e. `Int.tdiv` of that numerator by that denominator.  `interpSeg` embeds
  the formula in this exact form.
* `digitalWrite` on the PAS pin is modelled by the functions returning an
  `Option Bool`: `some b` means the pin was written to level `b` during the
  call, `none` means the pin was not touched.
* `analogRead` and `micros()` are boundary inputs and become parameters.
  The serial diagnostics and the buzz channel do not read or write any of the
  PAS channel state and are omitted.
-/

/-- Truncation-toward-zero division (`Int.tdiv`, C `long` division) is monotone
in the numerator when the denominator is positive. -/
theorem Int.tdiv_le_tdiv_right {a b d : Int} (hd : 0 < d) (h : a ≤ b) :
    a.tdiv d ≤ b.tdiv d := by
  rcases le_or_lt 0 a with ha | ha
  · rw [Int.tdiv_eq_ediv ha (le_of_lt hd), Int.tdiv_eq_ediv (le_trans ha h) (le_of_lt hd)]
    exact Int.ediv_le_ediv hd h
  · rcases le_or_lt 0 b with hb | hb
    · have h1 : a.tdiv d = -((-a).tdiv d) := by
        rw [Int.neg_tdiv, neg_neg]
      rw [h1, Int.tdiv_eq_ediv (by omega) (le_of_lt hd), Int.tdiv_eq_ediv hb (le_of_lt hd)]
      have h2 : 0 ≤ (-a) / d := Int.ediv_nonneg (by omega) (le_of_lt hd)
      have h3 : 0 ≤ b / d := Int.ediv_nonneg hb (le_of_lt hd)
      omega
    · have h1 : a.tdiv d = -((-a).tdiv d) := by rw [Int.neg_tdiv, neg_neg]
      have h2 : b.tdiv d = -((-b).tdiv d) := by rw [Int.neg_tdiv, neg_neg]
      rw [h1, h2, Int.tdiv_eq_ediv (by omega) (le_of_lt hd),
        Int.tdiv_eq_ediv (by omega) (le_of_lt hd)]
      have h3 : (-b) / d ≤ (-a) / d := Int.ediv_le_ediv hd (by omega)
      omega

/-- A lower bound `y0·d ≤ a` transfers through truncating division by `d > 0`. -/
theorem Int.le_tdiv_of_mul_le {a d y0 : Int} (hd : 0 < d) (h : y0 * d ≤ a) :
    y0 ≤ a.tdiv d := by
  have h1 : (y0 * d).tdiv d ≤ a.tdiv d := Int.tdiv_le_tdiv_right hd h
  rwa [Int.mul_tdiv_cancel _ (by omega)] at h1

/-- An upper bound `a ≤ y1·d` transfers through truncating division by `d > 0`. -/
theorem Int.tdiv_le_of_le_mul {a d y1 : Int} (hd : 0 < d) (h : a ≤ y1 * d) :
    a.tdiv d ≤ y1 := by
  have h1 : a.tdiv d ≤ (y1 * d).tdiv d := Int.tdiv_le_tdiv_right hd h
  rwa [Int.mul_tdiv_cancel _ (by omega)] at h1

/-- One interpolation step of `interpolate`
(`src/v3_emulator_buzz.ino:85-91`, `src/emulator_LUTthrottle.ino:68-76`):
the C code computes `y0 + ((inputValue - x0) * (y1 - y0) / (x1 - x0))` in
`float` and truncates toward zero on the cast to `long`.  On the value ranges
of this repository the float arithmetic is exact (see the header comment), so
the cast equals truncation toward zero of the exact rational value, written
here with the single division pulled out: `tdiv (y0·(x1-x0) + (v-x0)·(y1-y0)) (x1-x0)`. -/
def interpSeg (v x0 y0 x1 y1 : Int) : Int :=
  Int.tdiv (y0 * (x1 - x0) + (v - x0) * (y1 - y0)) (x1 - x0)

/-- The segment-search loop of `interpolate`
(`for (int i = 0; i < tableLen - 1; ++i) ...`,
`src/v3_emulator_buzz.ino:82-93`, `src/emulator_LUTthrottle.ino:64-78`):
walk the two parallel tables in lockstep and return the first adjacent pair
`inputTable[i] ≤ inputValue ≤ inputTable[i+1]`, together with the matching
outputs.  `tableLen` is always the common length of the two arrays at every
call site, so the array parameters subsume it. -/
def interpSearch (v : Int) : List Int → List Int → Option (Int × Int × Int × Int)
  | x0 :: x1 :: xs, y0 :: y1 :: ys =>
    if x0 ≤ v ∧ v ≤ x1 then some (x0, y0, x1, y1)
    else interpSearch v (x1 :: xs) (y1 :: ys)
  | _, _ => none

/-- `long interpolate(int inputValue, const int inputTable[], const int outputTable[], int tableLen)`
(`src/v3_emulator_buzz.ino:72-96`, textually identical in
`src/emulator_LUTthrottle.ino:52-82`): boundary clamp to the first/last output,
otherwise linear interpolation on the first matching segment, with the
unreachable `return outputTable[0];` fallback. -/
def interpolate (inputValue : Int) (inputTable outputTable : List Int) : Int :=
  if inputValue ≤ inputTable.getD 0 0 then
    outputTable.getD 0 0
  else if inputTable.getD (inputTable.length - 1) 0 ≤ inputValue then
    outputTable.getD (outputTable.length - 1) 0
  else
    match interpSearch inputValue inputTable outputTable with
    | some (x0, y0, x1, y1) => interpSeg inputValue x0 y0 x1 y1
    | none => outputTable.getD 0 0

/-- Arduino `map(x, in_min, in_max, out_min, out_max)` =
`(x - in_min) * (out_max - out_min) / (in_max - in_min) + out_min` on `long`,
with C truncating division. -/
def arduinoMap (x inMin inMax outMin outMax : Int) : Int :=
  Int.tdiv ((x - inMin) * (outMax - outMin)) (inMax - inMin) + outMin

/-- Arduino `constrain(amt, low, high)` =
`(amt < low) ? low : ((amt > high) ? high : amt)`. -/
def constrain (amt low high : Int) : Int :=
  if amt < low then low else if high < amt then high else amt

/-- Modulus of the 32-bit `unsigned long` used for `micros()` timestamps
(`2 ^ 32`). -/
def ULONG_MOD : Nat := 4294967296

/-- The elapsed-time expression `currentMicros - lastToggleMicros` on
`unsigned long`: wraparound-safe modular subtraction.  For
`current, last < ULONG_MOD` this is exactly the C unsigned result. -/
def elapsedMicros (current last : Nat) : Nat :=
  (current + ULONG_MOD - last) % ULONG_MOD

namespace V3

/-- `const int DUTY_CYCLE = 25;` (`src/v3_emulator_buzz.ino:26`). -/
def DUTY_CYCLE : Nat := 25

/-- `const int throttlePoints[] = { 220, 350, 500, 700, 820 };` (line 37). -/
def throttlePoints : List Int := [220, 350, 500, 700, 820]

/-- `const int frequencyPoints[] = { 0, 8, 14, 22, 25 };` (line 40). -/
def frequencyPoints : List Int := [0, 8, 14, 22, 25]

/-- `const int tableSize = sizeof(throttlePoints) / sizeof(throttlePoints[0]);` (line 43). -/
def tableSize : Nat := throttlePoints.length

/-- `struct PASState` (`src/v3_emulator_buzz.ino:46-52`). -/
structure PASState where
  outputHigh : Bool
  lastToggleMicros : Nat
  highDurationMicros : Nat
  lowDurationMicros : Nat
  currentFrequency : Int
  deriving DecidableEq, Repr

/-- `void updatePASTimings(long frequency)` (`src/v3_emulator_buzz.ino:102-109`):
when `frequency > 0`, `totalPeriodMicros = 1000000UL / frequency`,
`highDurationMicros = totalPeriodMicros * DUTY_CYCLE / 100` and
`lowDurationMicros = totalPeriodMicros - highDurationMicros` (all on
`unsigned long`; `totalPeriodMicros * DUTY_CYCLE ≤ 25_000_000 < 2^32`, so no
wraparound occurs); `currentFrequency` is updated unconditionally. -/
def updatePASTimings (pas : PASState) (frequency : Int) : PASState :=
  if 0 < frequency then
    let totalPeriodMicros : Nat := 1000000 / frequency.toNat
    { pas with
      highDurationMicros := totalPeriodMicros * DUTY_CYCLE / 100
      lowDurationMicros := totalPeriodMicros - totalPeriodMicros * DUTY_CYCLE / 100
      currentFrequency := frequency }
  else
    { pas with currentFrequency := frequency }

/-- `void updatePASSignal(unsigned long currentMicros)`
(`src/v3_emulator_buzz.ino:128-148`).  The returned `Option Bool` is the
`digitalWrite(PAS_PIN, _)` issued during the call (`none` = pin untouched). -/
def updatePASSignal (pas : PASState) (currentMicros : Nat) : PASState × Option Bool :=
  if pas.currentFrequency ≤ 0 then
    ({ pas with outputHigh := false }, some false)
  else if pas.outputHigh then
    if pas.highDurationMicros ≤ elapsedMicros currentMicros pas.lastToggleMicros then
      ({ pas with outputHigh := false, lastToggleMicros := currentMicros }, some false)
    else (pas, none)
  else
    if pas.lowDurationMicros ≤ elapsedMicros currentMicros pas.lastToggleMicros then
      ({ pas with outputHigh := true, lastToggleMicros := currentMicros }, some true)
    else (pas, none)

/-- Repeated evaluation of `updatePASSignal` at one fixed timestamp
(the state after `n` successive calls within the same microsecond). -/
def iteratePAS (currentMicros : Nat) : Nat → PASState → PASState
  | 0, pas => pas
  | n + 1, pas => iteratePAS currentMicros n (updatePASSignal pas currentMicros).1

/-- `void processThrottleInput()` (`src/v3_emulator_buzz.ino:189-202`), with the
fresh `analogRead(THROTTLE_PIN)` sample passed in.  The parallel
`updateBuzzTimings` call touches only the independent buzz state and is
omitted. -/
def processThrottleInput (pas : PASState) (throttleValue : Int) : PASState :=
  if throttlePoints.getD 0 0 < throttleValue then
    updatePASTimings pas (interpolate throttleValue throttlePoints frequencyPoints)
  else
    updatePASTimings pas 0

/-- One pass of `void loop()` (`src/v3_emulator_buzz.ino:227-241`) restricted to
the PAS channel: `processThrottleInput()` then `updatePASSignal(currentMicros)`.
Returns the new PAS state and the pin write of the pass. -/
def loopPass (pas : PASState) (throttleValue : Int) (currentMicros : Nat) :
    PASState × Option Bool :=
  updatePASSignal (processThrottleInput pas throttleValue) currentMicros

/-- `pas = {false, 0, 0, 0, 0};` from `setup()` (`src/v3_emulator_buzz.ino:222`). -/
def initialPAS : PASState :=
  { outputHigh := false, lastToggleMicros := 0, highDurationMicros := 0
    lowDurationMicros := 0, currentFrequency := 0 }

end V3

namespace Fixed

/-- `const int THROTTLE_MIN = 220;` (`src/unnamed/part_000:24`). -/
def THROTTLE_MIN : Int := 220

/-- `const int THROTTLE_MAX = 820;` (`src/unnamed/part_000:25`). -/
def THROTTLE_MAX : Int := 820

/-- `const int MIN_FREQUENCY = 5;` (`src/unnamed/part_000:28`). -/
def MIN_FREQUENCY : Int := 5

/-- `const int MAX_FREQUENCY = 25;` (`src/unnamed/part_000:29`). -/
def MAX_FREQUENCY : Int := 25

/-- `const int DUTY_CYCLE = 25;` (`src/unnamed/part_000:34`). -/
def DUTY_CYCLE : Nat := 25

/-- The persistent state of `src/unnamed/part_000`:
`bool pasState` and `unsigned long previousMicros` (lines 38-39). -/
structure FixedState where
  pasState : Bool
  previousMicros : Nat
  deriving DecidableEq, Repr

/-- `map(throttleValue, THROTTLE_MIN, THROTTLE_MAX, MIN_FREQUENCY, MAX_FREQUENCY)`
followed by `constrain(frequency, MIN_FREQUENCY, MAX_FREQUENCY)`
(`src/unnamed/part_000:65-66`). -/
def fixedFrequency (throttleValue : Int) : Int :=
  constrain (arduinoMap throttleValue THROTTLE_MIN THROTTLE_MAX MIN_FREQUENCY MAX_FREQUENCY)
    MIN_FREQUENCY MAX_FREQUENCY

/-- `unsigned long totalPeriodMicros = 1000000 / frequency;`
(`src/unnamed/part_000:69`); only evaluated with `frequency > 0`. -/
def totalPeriodMicros (frequency : Int) : Nat :=
  1000000 / frequency.toNat

/-- `unsigned long highTimeMicros = totalPeriodMicros * (DUTY_CYCLE / 100.0);`
(`src/unnamed/part_000:70`).  `DUTY_CYCLE / 100.0` is exactly the float `0.25`;
multiplying a period of at most `200000` (exactly representable) by `0.25` is
an exact scaling by a power of two, and the cast back to `unsigned long`
truncates, so the result is exactly `totalPeriodMicros / 4`. -/
def highTimeMicros (totalPeriodMicros : Nat) : Nat :=
  totalPeriodMicros / 4

/-- `unsigned long lowTimeMicros = totalPeriodMicros - highTimeMicros;`
(`src/unnamed/part_000:71`). -/
def lowTimeMicros (totalPeriodMicros : Nat) : Nat :=
  totalPeriodMicros - highTimeMicros totalPeriodMicros

/-- One pass of `void loop()` (`src/unnamed/part_000:52-97`) with the
`analogRead` sample and `micros()` timestamp passed in.  Returns the new state
and the `digitalWrite(PAS_PIN, _)` issued during the pass (`none` = untouched). -/
def loopPass (st : FixedState) (throttleValue : Int) (currentMicros : Nat) :
    FixedState × Option Bool :=
  if THROTTLE_MIN < throttleValue then
    let frequency := fixedFrequency throttleValue
    let p := totalPeriodMicros frequency
    if st.pasState = true ∧ highTimeMicros p ≤ elapsedMicros currentMicros st.previousMicros then
      ({ pasState := false, previousMicros := currentMicros }, some false)
    else if st.pasState = false ∧ lowTimeMicros p ≤ elapsedMicros currentMicros st.previousMicros then
      ({ pasState := true, previousMicros := currentMicros }, some true)
    else (st, none)
  else
    ({ st with pasState := false }, some false)

end Fixed

namespace LUTv

/-- `const int DUTY_CYCLE = 25;` (`src/emulator_LUTthrottle.ino:22`). -/
def DUTY_CYCLE : Nat := 25

/-- `const int throttlePoints[] = { 220, 350, 500, 700, 820 };`
(`src/emulator_LUTthrottle.ino:30`). -/
def throttlePoints : List Int := [220, 350, 500, 700, 820]

/-- `const int frequencyPoints[] = { 0, 8, 14, 22, 25 };`
(`src/emulator_LUTthrottle.ino:33`). -/
def frequencyPoints : List Int := [0, 8, 14, 22, 25]

/-- The persistent state of `src/emulator_LUTthrottle.ino`:
`bool pasState` and `unsigned long previousMicros` (lines 41-42). -/
structure LUTState where
  pasState : Bool
  previousMicros : Nat
  deriving DecidableEq, Repr

/-- `unsigned long totalPeriodMicros = 1000000 / frequency;`
(`src/emulator_LUTthrottle.ino:107`); only evaluated with `frequency > 0`. -/
def totalPeriodMicros (frequency : Int) : Nat :=
  1000000 / frequency.toNat

/-- `unsigned long highTimeMicros = totalPeriodMicros * (DUTY_CYCLE / 100.0);`
(`src/emulator_LUTthrottle.ino:108`): exact float scaling by `0.25` followed by
a truncating cast, i.e. `totalPeriodMicros / 4` (see `Fixed.highTimeMicros`). -/
def highTimeMicros (totalPeriodMicros : Nat) : Nat :=
  totalPeriodMicros / 4

/-- `unsigned long lowTimeMicros = totalPeriodMicros - highTimeMicros;`
(`src/emulator_LUTthrottle.ino:109`). -/
def lowTimeMicros (totalPeriodMicros : Nat) : Nat :=
  totalPeriodMicros - highTimeMicros totalPeriodMicros

/-- One pass of `void loop()` (`src/emulator_LUTthrottle.ino:93-132`) with the
`analogRead` sample and `micros()` timestamp passed in.  Returns the new state
and the `digitalWrite(PAS_PIN, _)` issued during the pass (`none` = untouched). -/
def loopPass (st : LUTState) (throttleValue : Int) (currentMicros : Nat) :
    LUTState × Option Bool :=
  if throttlePoints.getD 0 0 < throttleValue then
    let frequency := interpolate throttleValue throttlePoints frequencyPoints
    if 0 < frequency then
      let p := totalPeriodMicros frequency
      if st.pasState = true ∧ highTimeMicros p ≤ elapsedMicros currentMicros st.previousMicros then
        ({ pasState := false, previousMicros := currentMicros }, some false)
      else if st.pasState = false ∧ lowTimeMicros p ≤ elapsedMicros currentMicros st.previousMicros then
        ({ pasState := true, previousMicros := currentMicros }, some true)
      else (st, none)
    else
      ({ st with pasState := false }, some false)
  else
    ({ st with pasState := false }, some false)

end LUTv

/-! ## Helper lemmas -/

/-- In a `≤`-chained list, entries are monotone in the index. -/
theorem chain_le_getD_mono (xs : List Int) (h : List.Chain' (· ≤ ·) xs)
    {i j : Nat} (hij : i ≤ j) (hj : j < xs.length) : xs.getD i 0 ≤ xs.getD j 0 := by
  rcases Nat.eq_or_lt_of_le hij with rfl | hlt
  · exact le_refl _
  · have hp := (List.chain'_iff_pairwise).mp h
    have hij2 := List.pairwise_iff_get.mp hp ⟨i, lt_trans hlt hj⟩ ⟨j, hj⟩ hlt
    rwa [List.getD_eq_get _ _ (lt_trans hlt hj), List.getD_eq_get _ _ hj]

/-- `constrain` is monotone in its clamped argument (for a sensible range). -/
theorem constrain_mono {a b low high : Int} (hlh : low ≤ high) (h : a ≤ b) :
    constrain a low high ≤ constrain b low high := by
  unfold constrain
  split_ifs <;> omega

/-- The interpolation formula is monotone in the sample on a non-degenerate
segment with non-decreasing outputs. -/
theorem interpSeg_mono {v1 v2 x0 y0 x1 y1 : Int} (hx : x0 < x1) (hy : y0 ≤ y1)
    (hv : v1 ≤ v2) : interpSeg v1 x0 y0 x1 y1 ≤ interpSeg v2 x0 y0 x1 y1 := by
  apply Int.tdiv_le_tdiv_right (by omega)
  nlinarith

/-- On a non-degenerate segment, the interpolated value is at most the upper
output. -/
theorem interpSeg_le {v x0 y0 x1 y1 : Int} (hx : x0 < x1) (hy : y0 ≤ y1)
    (hv : v ≤ x1) : interpSeg v x0 y0 x1 y1 ≤ y1 := by
  apply Int.tdiv_le_of_le_mul (by omega)
  nlinarith

/-- On a non-degenerate segment, the interpolated value is at least the lower
output. -/
theorem le_interpSeg {v x0 y0 x1 y1 : Int} (hx : x0 < x1) (hy : y0 ≤ y1)
    (hv : x0 ≤ v) : y0 ≤ interpSeg v x0 y0 x1 y1 := by
  apply Int.le_tdiv_of_mul_le (by omega)
  nlinarith

/-- At the upper knot of a non-degenerate segment the interpolation is exact. -/
theorem interpSeg_knot {x0 y0 x1 y1 : Int} (hx : x0 ≠ x1) :
    interpSeg x1 x0 y0 x1 y1 = y1 := by
  unfold interpSeg
  have h : y0 * (x1 - x0) + (x1 - x0) * (y1 - y0) = y1 * (x1 - x0) := by ring
  rw [h, Int.mul_tdiv_cancel _ (by omega)]

/-- Any segment the search loop selects, when the sample is strictly above the
table head, straddles the sample and is non-degenerate: the interpolation
division `/(x1 - x0)` never has a zero denominator. -/
theorem interpSearch_strict {v : Int} {xs ys : List Int} {x0 y0 x1 y1 : Int}
    (hc : List.Chain' (· ≤ ·) xs) (hh : ∀ a, xs.head? = some a → a < v)
    (hs : interpSearch v xs ys = some (x0, y0, x1, y1)) :
    x0 < v ∧ v ≤ x1 ∧ x0 < x1 := by
  induction xs generalizing ys with
  | nil => simp [interpSearch] at hs
  | cons a rest ih =>
    cases rest with
    | nil => simp [interpSearch] at hs
    | cons b t =>
      cases ys with
      | nil => simp [interpSearch] at hs
      | cons c u =>
        cases u with
        | nil => simp [interpSearch] at hs
        | cons d u2 =>
          have hav : a < v := hh a rfl
          by_cases hm : a ≤ v ∧ v ≤ b
          · simp only [interpSearch, if_pos hm, Option.some.injEq, Prod.mk.injEq] at hs
            obtain ⟨rfl, rfl, rfl, rfl⟩ := hs
            exact ⟨hav, hm.2, lt_of_lt_of_le hav hm.2⟩
          · simp only [interpSearch, if_neg hm] at hs
            have hbv : b < v := by
              rcases not_and_or.mp hm with h | h <;> omega
            exact ih hc.tail
              (by intro a' ha'; simp only [List.head?_cons, Option.some.injEq] at ha'; omega) hs

/-- The value interpolated on the selected segment is at least the head of the
output table. -/
theorem interpSearch_lb {v : Int} {xs ys : List Int} {x0 y0 x1 y1 c0 : Int}
    (hcx : List.Chain' (· ≤ ·) xs) (hcy : List.Chain' (· ≤ ·) ys)
    (hh : ∀ a, xs.head? = some a → a < v) (hyh : ys.head? = some c0)
    (hs : interpSearch v xs ys = some (x0, y0, x1, y1)) :
    c0 ≤ interpSeg v x0 y0 x1 y1 := by
  induction xs generalizing ys c0 with
  | nil => simp [interpSearch] at hs
  | cons a rest ih =>
    cases rest with
    | nil => simp [interpSearch] at hs
    | cons b t =>
      cases ys with
      | nil => simp [interpSearch] at hs
      | cons c u =>
        cases u with
        | nil => simp [interpSearch] at hs
        | cons d u2 =>
          simp only [List.head?_cons, Option.some.injEq] at hyh
          subst hyh
          have hav : a < v := hh a rfl
          have hcd : c ≤ d := (List.chain'_cons.mp hcy).1
          by_cases hm : a ≤ v ∧ v ≤ b
          · simp only [interpSearch, if_pos hm, Option.some.injEq, Prod.mk.injEq] at hs
            obtain ⟨rfl, rfl, rfl, rfl⟩ := hs
            exact le_interpSeg (lt_of_lt_of_le hav hm.2) hcd (le_of_lt hav)
          · simp only [interpSearch, if_neg hm] at hs
            have hbv : b < v := by
              rcases not_and_or.mp hm with h | h <;> omega
            have hcx' : List.Chain' (· ≤ ·) (b :: t) := hcx.tail
            have hcy' : List.Chain' (· ≤ ·) (d :: u2) := hcy.tail
            have hd := ih hcx' hcy'
              (by intro a' ha'; simp only [List.head?_cons, Option.some.injEq] at ha'; omega)
              rfl hs
            omega

/-- The value interpolated on the selected segment is at most the last entry of
the output table. -/
theorem interpSearch_ub {v : Int} {xs ys : List Int} {x0 y0 x1 y1 : Int}
    (hcx : List.Chain' (· ≤ ·) xs) (hcy : List.Chain' (· ≤ ·) ys)
    (hh : ∀ a, xs.head? = some a → a < v)
    (hs : interpSearch v xs ys = some (x0, y0, x1, y1)) :
    interpSeg v x0 y0 x1 y1 ≤ ys.getD (ys.length - 1) 0 := by
  induction xs generalizing ys with
  | nil => simp [interpSearch] at hs
  | cons a rest ih =>
    cases rest with
    | nil => simp [interpSearch] at hs
    | cons b t =>
      cases ys with
      | nil => simp [interpSearch] at hs
      | cons c u =>
        cases u with
        | nil => simp [interpSearch] at hs
        | cons d u2 =>
          have hav : a < v := hh a rfl
          have hcd : c ≤ d := (List.chain'_cons.mp hcy).1
          have hlast : (c :: d :: u2).getD ((c :: d :: u2).length - 1) 0
              = (d :: u2).getD ((d :: u2).length - 1) 0 := by
            simp only [List.length_cons]
            rw [show u2.length + 1 + 1 - 1 = (u2.length + 1 - 1) + 1 by omega,
              List.getD_cons_succ]
          have hcx' : List.Chain' (· ≤ ·) (b :: t) := hcx.tail
          have hcy' : List.Chain' (· ≤ ·) (d :: u2) := hcy.tail
          by_cases hm : a ≤ v ∧ v ≤ b
          · simp only [interpSearch, if_pos hm, Option.some.injEq, Prod.mk.injEq] at hs
            obtain ⟨rfl, rfl, rfl, rfl⟩ := hs
            have h1 := interpSeg_le (lt_of_lt_of_le hav hm.2) hcd hm.2
            have h2 : (d :: u2).getD 0 0 ≤ (d :: u2).getD ((d :: u2).length - 1) 0 :=
              chain_le_getD_mono _ hcy' (Nat.zero_le _) (by simp)
            simp only [List.getD_cons_zero] at h2
            rw [hlast]
            omega
          · simp only [interpSearch, if_neg hm] at hs
            have hbv : b < v := by
              rcases not_and_or.mp hm with h | h <;> omega
            have hd := ih hcx' hcy'
              (by intro a' ha'; simp only [List.head?_cons, Option.some.injEq] at ha'; omega) hs
            rw [hlast]
            exact hd

/-- For an interior sample (at least the head, at most the last input) over
tables of matching length `≥ 2`, the search loop always finds a segment: the
`return outputTable[0];` fallback of `interpolate` is unreachable. -/
theorem interpSearch_isSome {v : Int} {xs ys : List Int}
    (hlen : ys.length = xs.length) (h2 : 2 ≤ xs.length)
    (hh : ∀ a, xs.head? = some a → a ≤ v)
    (hlast : v ≤ xs.getD (xs.length - 1) 0) :
    ∃ r, interpSearch v xs ys = some r := by
  induction xs generalizing ys with
  | nil => simp at h2
  | cons a rest ih =>
    cases rest with
    | nil => simp at h2
    | cons b t =>
      cases ys with
      | nil => simp at hlen
      | cons c u =>
        cases u with
        | nil => simp at hlen
        | cons d u2 =>
          have hav : a ≤ v := hh a rfl
          by_cases hm : a ≤ v ∧ v ≤ b
          · exact ⟨(a, c, b, d), by simp only [interpSearch, if_pos hm]⟩
          · have hbv : b < v := by
              rcases not_and_or.mp hm with h | h <;> omega
            cases t with
            | nil =>
              exfalso
              simp only [List.length_cons, List.length_nil] at hlast
              norm_num at hlast
              omega
            | cons e t2 =>
              have hlen' : (d :: u2).length = (b :: e :: t2).length := by
                simp only [List.length_cons] at hlen ⊢
                omega
              have hlast' : v ≤ (b :: e :: t2).getD ((b :: e :: t2).length - 1) 0 := by
                simp only [List.length_cons] at hlast ⊢
                rw [show t2.length + 1 + 1 + 1 - 1 = (t2.length + 1 + 1 - 1) + 1 by omega,
                  List.getD_cons_succ] at hlast
                exact hlast
              obtain ⟨r, hr⟩ := ih hlen' (by simp)
                (by intro a' ha'; simp only [List.head?_cons, Option.some.injEq] at ha'; omega)
                hlast'
              exact ⟨r, by simp only [interpSearch, if_neg hm]; exact hr⟩

/-- The search-and-interpolate result is monotone in the sample (for samples
strictly above the table head). -/
theorem interpSearch_mono {v1 v2 : Int} {xs ys : List Int}
    {a1 b1 c1 d1 a2 b2 c2 d2 : Int}
    (hcx : List.Chain' (· ≤ ·) xs) (hcy : List.Chain' (· ≤ ·) ys)
    (hh : ∀ a, xs.head? = some a → a < v1) (hv : v1 ≤ v2)
    (hs1 : interpSearch v1 xs ys = some (a1, b1, c1, d1))
    (hs2 : interpSearch v2 xs ys = some (a2, b2, c2, d2)) :
    interpSeg v1 a1 b1 c1 d1 ≤ interpSeg v2 a2 b2 c2 d2 := by
  induction xs generalizing ys with
  | nil => simp [interpSearch] at hs1
  | cons a rest ih =>
    cases rest with
    | nil => simp [interpSearch] at hs1
    | cons b t =>
      cases ys with
      | nil => simp [interpSearch] at hs1
      | cons c u =>
        cases u with
        | nil => simp [interpSearch] at hs1
        | cons d u2 =>
          have hav : a < v1 := hh a rfl
          have hcd : c ≤ d := (List.chain'_cons.mp hcy).1
          have hcx' : List.Chain' (· ≤ ·) (b :: t) := hcx.tail
          have hcy' : List.Chain' (· ≤ ·) (d :: u2) := hcy.tail
          by_cases hm1 : a ≤ v1 ∧ v1 ≤ b
          · simp only [interpSearch, if_pos hm1, Option.some.injEq, Prod.mk.injEq] at hs1
            obtain ⟨rfl, rfl, rfl, rfl⟩ := hs1
            by_cases hm2 : a ≤ v2 ∧ v2 ≤ b
            · simp only [interpSearch, if_pos hm2, Option.some.injEq, Prod.mk.injEq] at hs2
              obtain ⟨rfl, rfl, rfl, rfl⟩ := hs2
              exact interpSeg_mono (lt_of_lt_of_le hav hm1.2) hcd hv
            · simp only [interpSearch, if_neg hm2] at hs2
              have hbv2 : b < v2 := by
                rcases not_and_or.mp hm2 with h | h <;> omega
              have h1 := interpSeg_le (lt_of_lt_of_le hav hm1.2) hcd hm1.2
              have h2 := interpSearch_lb hcx' hcy'
                (by intro a' ha'; simp only [List.head?_cons, Option.some.injEq] at ha'; omega)
                rfl hs2
              omega
          · have hbv1 : b < v1 := by
              rcases not_and_or.mp hm1 with h | h <;> omega
            have hm2 : ¬(a ≤ v2 ∧ v2 ≤ b) := by omega
            simp only [interpSearch, if_neg hm1] at hs1
            simp only [interpSearch, if_neg hm2] at hs2
            exact ih hcx' hcy'
              (by intro a' ha'; simp only [List.head?_cons, Option.some.injEq] at ha'; omega)
              hs1 hs2

/-- When the sample equals table entry `k`, and `k` is the first index carrying
that input value, the search loop selects the segment ending at `k`. -/
theorem interpSearch_knot {v : Int} :
    ∀ (k : Nat) (xs ys : List Int), List.Chain' (· ≤ ·) xs →
      ys.length = xs.length → 1 ≤ k → k < xs.length →
      xs.getD (k - 1) 0 < xs.getD k 0 → v = xs.getD k 0 →
      interpSearch v xs ys =
        some (xs.getD (k - 1) 0, ys.getD (k - 1) 0, xs.getD k 0, ys.getD k 0) := by
  intro k
  induction k with
  | zero => intro xs ys _ _ hk1 _ _ _; omega
  | succ n ih =>
    intro xs ys hc hlen hk1 hk2 hprev hv
    match xs, ys with
    | [], _ => simp at hk2
    | [a], _ => simp at hk2
    | a :: b :: t, [] => simp at hlen
    | a :: b :: t, [c] => simp at hlen
    | a :: b :: t, c :: d :: u2 =>
      cases n with
      | zero =>
        simp only [Nat.add_sub_cancel, List.getD_cons_zero, List.getD_cons_succ] at hprev hv ⊢
        have hm : a ≤ v ∧ v ≤ b := by constructor <;> omega
        simp only [interpSearch, if_pos hm, List.getD_cons_zero]
      | succ m =>
        have e1 : (a :: b :: t).getD (m + 1 + 1 - 1) 0 = (b :: t).getD m 0 := by
          rw [show m + 1 + 1 - 1 = m + 1 by omega, List.getD_cons_succ]
        have e2 : (a :: b :: t).getD (m + 1 + 1) 0 = (b :: t).getD (m + 1) 0 :=
          List.getD_cons_succ ..
        have e3 : (c :: d :: u2).getD (m + 1 + 1 - 1) 0 = (d :: u2).getD m 0 := by
          rw [show m + 1 + 1 - 1 = m + 1 by omega, List.getD_cons_succ]
        have e4 : (c :: d :: u2).getD (m + 1 + 1) 0 = (d :: u2).getD (m + 1) 0 :=
          List.getD_cons_succ ..
        rw [e1, e2] at hprev
        rw [e2] at hv
        have hb : b ≤ (b :: t).getD m 0 := by
          have hmono := chain_le_getD_mono (b :: t) hc.tail (Nat.zero_le m)
            (show m < (b :: t).length by simp only [List.length_cons] at hk2 ⊢; omega)
          simpa using hmono
        have hbv : b < v := by omega
        have hm : ¬(a ≤ v ∧ v ≤ b) := by omega
        simp only [interpSearch, if_neg hm]
        have hc' : List.Chain' (· ≤ ·) (b :: t) := hc.tail
        have hlen' : (d :: u2).length = (b :: t).length := by
          simp only [List.length_cons] at hlen ⊢; omega
        have hprev' : (b :: t).getD (m + 1 - 1) 0 < (b :: t).getD (m + 1) 0 := by
          rw [Nat.add_sub_cancel]
          exact hprev
        have hres := ih (b :: t) (d :: u2) hc' hlen' (by omega)
          (by simp only [List.length_cons] at hk2 ⊢; omega) hprev' hv
        rw [hres, e1, e2, e3, e4, Nat.add_sub_cancel]

/-- Every `interpolate` result is bounded below by the first output entry. -/
theorem interpolate_lb {xs ys : List Int} (hcx : List.Chain' (· ≤ ·) xs)
    (hcy : List.Chain' (· ≤ ·) ys) (hlen : ys.length = xs.length)
    (h2 : 2 ≤ xs.length) (v : Int) :
    ys.getD 0 0 ≤ interpolate v xs ys := by
  unfold interpolate
  split_ifs with h1 hlast
  · exact le_refl _
  · exact chain_le_getD_mono ys hcy (Nat.zero_le _) (by omega)
  · cases hsr : interpSearch v xs ys with
    | none => simp
    | some r =>
      obtain ⟨x0, y0, x1, y1⟩ := r
      cases xs with
      | nil => simp at h2
      | cons a xs' =>
        cases ys with
        | nil => simp only [List.length_cons, List.length_nil] at hlen; omega
        | cons c ys' =>
          have hh : ∀ a', (a :: xs').head? = some a' → a' < v := by
            intro a' ha'
            simp only [List.head?_cons, Option.some.injEq] at ha'
            simp only [List.getD_cons_zero] at h1
            omega
          have hlb := interpSearch_lb hcx hcy hh rfl hsr
          simpa using hlb

/-- Every `interpolate` result is bounded above by the last output entry. -/
theorem interpolate_ub {xs ys : List Int} (hcx : List.Chain' (· ≤ ·) xs)
    (hcy : List.Chain' (· ≤ ·) ys) (hlen : ys.length = xs.length)
    (h2 : 2 ≤ xs.length) (v : Int) :
    interpolate v xs ys ≤ ys.getD (ys.length - 1) 0 := by
  unfold interpolate
  split_ifs with h1 hlast
  · exact chain_le_getD_mono ys hcy (Nat.zero_le _) (by omega)
  · exact le_refl _
  · cases hsr : interpSearch v xs ys with
    | none => simpa using chain_le_getD_mono ys hcy (Nat.zero_le _) (by omega)
    | some r =>
      obtain ⟨x0, y0, x1, y1⟩ := r
      cases xs with
      | nil => simp at h2
      | cons a xs' =>
        have hh : ∀ a', (a :: xs').head? = some a' → a' < v := by
          intro a' ha'
          simp only [List.head?_cons, Option.some.injEq] at ha'
          simp only [List.getD_cons_zero] at h1
          omega
        exact interpSearch_ub hcx hcy hh hsr

/-- `interpolate` is monotone in the sample over tables with non-decreasing
inputs and outputs. -/
theorem interpolate_mono {xs ys : List Int} (hcx : List.Chain' (· ≤ ·) xs)
    (hcy : List.Chain' (· ≤ ·) ys) (hlen : ys.length = xs.length)
    (h2 : 2 ≤ xs.length) {v1 v2 : Int} (hv : v1 ≤ v2) :
    interpolate v1 xs ys ≤ interpolate v2 xs ys := by
  by_cases hb1 : v1 ≤ xs.getD 0 0
  · have e : interpolate v1 xs ys = ys.getD 0 0 := by
      unfold interpolate; rw [if_pos hb1]
    rw [e]
    exact interpolate_lb hcx hcy hlen h2 v2
  · have h0l : xs.getD 0 0 ≤ xs.getD (xs.length - 1) 0 :=
      chain_le_getD_mono xs hcx (Nat.zero_le _) (by omega)
    by_cases hb2 : xs.getD (xs.length - 1) 0 ≤ v1
    · have hb2' : xs.getD (xs.length - 1) 0 ≤ v2 := le_trans hb2 hv
      have hnb2 : ¬ (v2 ≤ xs.getD 0 0) := by omega
      have e1 : interpolate v1 xs ys = ys.getD (ys.length - 1) 0 := by
        unfold interpolate; rw [if_neg hb1, if_pos hb2]
      have e2 : interpolate v2 xs ys = ys.getD (ys.length - 1) 0 := by
        unfold interpolate; rw [if_neg hnb2, if_pos hb2']
      rw [e1, e2]
    · by_cases hb3 : xs.getD (xs.length - 1) 0 ≤ v2
      · have hnb2 : ¬ (v2 ≤ xs.getD 0 0) := by omega
        have e2 : interpolate v2 xs ys = ys.getD (ys.length - 1) 0 := by
          unfold interpolate; rw [if_neg hnb2, if_pos hb3]
        rw [e2]
        exact interpolate_ub hcx hcy hlen h2 v1
      · have hnb2 : ¬ (v2 ≤ xs.getD 0 0) := by omega
        cases xs with
        | nil => simp at h2
        | cons a xs' =>
          have hh1 : ∀ a', (a :: xs').head? = some a' → a' < v1 := by
            intro a' ha'
            simp only [List.head?_cons, Option.some.injEq] at ha'
            simp only [List.getD_cons_zero] at hb1
            omega
          obtain ⟨⟨a1, b1, c1, d1⟩, hr1⟩ := interpSearch_isSome hlen h2
            (fun a' h => le_of_lt (hh1 a' h)) (by omega)
          obtain ⟨⟨a2, b2, c2, d2⟩, hr2⟩ := interpSearch_isSome hlen h2
            (fun a' h => le_trans (le_of_lt (hh1 a' h)) hv) (by omega)
          have e1 : interpolate v1 (a :: xs') ys = interpSeg v1 a1 b1 c1 d1 := by
            unfold interpolate; rw [if_neg hb1, if_neg hb2, hr1]
          have e2 : interpolate v2 (a :: xs') ys = interpSeg v2 a2 b2 c2 d2 := by
            unfold interpolate; rw [if_neg hnb2, if_neg hb3, hr2]
          rw [e1, e2]
          exact interpSearch_mono hcx hcy hh1 hv hr1 hr2

/-! ## Claim theorems -/

/-- **C1.** For every active channel (`currentFrequency > 0`), one evaluation of
`updatePASSignal` at `currentMicros` behaves exactly as specified: if the level
is high and the wraparound-safe elapsed time is at least `highDurationMicros`,
the level becomes low, the pin is written low and `lastToggleMicros` is set to
`currentMicros`; if the level is low and the elapsed time is at least
`lowDurationMicros`, the level becomes high, the pin is written high and
`lastToggleMicros` is set to `currentMicros`; otherwise the state and the pin
are completely unchanged, no matter how many times the evaluation is repeated
at the same timestamp. -/
theorem claim_C1_toggler_step (pas : V3.PASState) (cur : Nat)
    (hf : 0 < pas.currentFrequency) :
    (pas.outputHigh = true →
      pas.highDurationMicros ≤ elapsedMicros cur pas.lastToggleMicros →
      V3.updatePASSignal pas cur =
        ({ pas with outputHigh := false, lastToggleMicros := cur }, some false)) ∧
    (pas.outputHigh = false →
      pas.lowDurationMicros ≤ elapsedMicros cur pas.lastToggleMicros →
      V3.updatePASSignal pas cur =
        ({ pas with outputHigh := true, lastToggleMicros := cur }, some true)) ∧
    ((pas.outputHigh = true → elapsedMicros cur pas.lastToggleMicros < pas.highDurationMicros) →
     (pas.outputHigh = false → elapsedMicros cur pas.lastToggleMicros < pas.lowDurationMicros) →
      V3.updatePASSignal pas cur = (pas, none) ∧ ∀ n, V3.iteratePAS cur n pas = pas) := by
  have hnf : ¬ pas.currentFrequency ≤ 0 := not_le.mpr hf
  refine ⟨?_, ?_, ?_⟩
  · intro hh he
    simp [V3.updatePASSignal, hnf, hh, he]
  · intro hh he
    simp [V3.updatePASSignal, hnf, hh, he]
  · intro h1 h2
    have hstep : V3.updatePASSignal pas cur = (pas, none) := by
      cases hb : pas.outputHigh with
      | true => simp [V3.updatePASSignal, hnf, hb, not_le.mpr (h1 hb)]
      | false => simp [V3.updatePASSignal, hnf, hb, not_le.mpr (h2 hb)]
    refine ⟨hstep, ?_⟩
    intro n
    induction n with
    | zero => rfl
    | succ n ih => simp [V3.iteratePAS, hstep, ih]

/-- Witness for C1: an active high channel whose high hold time has elapsed
toggles low at the current time. -/
theorem claim_C1_witness :
    (0 : Int) < 15 ∧
    V3.updatePASSignal ⟨true, 0, 16666, 50000, 15⟩ 20000 =
      (⟨false, 20000, 16666, 50000, 15⟩, some false) :=
  ⟨by decide,
    (claim_C1_toggler_step ⟨true, 0, 16666, 50000, 15⟩ 20000 (by decide)).1 rfl (by decide)⟩

/-- **C2.** For every frequency `f > 0` and the configured duty cycle of 25
percent, the timing calculations of `updatePASTimings`
(`src/v3_emulator_buzz.ino:102-109`) and of the `loop` of
`src/emulator_LUTthrottle.ino:106-109` satisfy
`high + low = 1000000 / f` and `high = (1000000 / f) * 25 / 100` with integer
semantics, so the two durations sum exactly to the integer period. -/
theorem claim_C2_timing (pas : V3.PASState) (f : Int) (hf : 0 < f) :
    (V3.updatePASTimings pas f).highDurationMicros
        + (V3.updatePASTimings pas f).lowDurationMicros = 1000000 / f.toNat ∧
    (V3.updatePASTimings pas f).highDurationMicros = (1000000 / f.toNat) * 25 / 100 ∧
    LUTv.highTimeMicros (LUTv.totalPeriodMicros f)
        + LUTv.lowTimeMicros (LUTv.totalPeriodMicros f) = 1000000 / f.toNat ∧
    LUTv.highTimeMicros (LUTv.totalPeriodMicros f) = (1000000 / f.toNat) * 25 / 100 := by
  simp only [V3.updatePASTimings, if_pos hf, LUTv.highTimeMicros, LUTv.lowTimeMicros,
    LUTv.totalPeriodMicros, V3.DUTY_CYCLE]
  generalize (1000000 : Nat) / f.toNat = p
  exact ⟨by omega, trivial, by omega, by omega⟩

/-- Witness for C2 at `f = 15`: the durations are `16666` and `50000`, summing
to the integer period `66666`. -/
theorem claim_C2_witness :
    (0 : Int) < 15 ∧
    (V3.updatePASTimings V3.initialPAS 15).highDurationMicros
        + (V3.updatePASTimings V3.initialPAS 15).lowDurationMicros = 1000000 / (15 : Int).toNat :=
  ⟨by decide, (claim_C2_timing V3.initialPAS 15 (by decide)).1⟩

/-- **C3.** The elapsed-time computation of the toggler is modular
(wraparound-safe) unsigned subtraction: whenever the current timestamp is the
wrapped sum `(last + δ) % 2^32` — including a `last` near the maximum
representable value with the clock already wrapped past zero — the computed
elapsed time is exactly `δ`, and a due toggle (elapsed at least the hold
duration) is still detected. -/
theorem claim_C3_wraparound (last δ : Nat) (h1 : last < ULONG_MOD) (h2 : δ < ULONG_MOD) :
    elapsedMicros ((last + δ) % ULONG_MOD) last = δ ∧
    (∀ pas : V3.PASState, pas.outputHigh = true → 0 < pas.currentFrequency →
      pas.lastToggleMicros = last → pas.highDurationMicros ≤ δ →
      (V3.updatePASSignal pas ((last + δ) % ULONG_MOD)).2 = some false) := by
  have he : elapsedMicros ((last + δ) % ULONG_MOD) last = δ := by
    simp only [elapsedMicros, ULONG_MOD] at *
    omega
  refine ⟨he, ?_⟩
  intro pas hh hf hl hd
  subst hl
  simp [V3.updatePASSignal, not_le.mpr hf, hh, he, hd]

/-- Witness for C3: `lastToggleMicros = 2^32 - 100`, elapsed `δ = 16666`, so
the clock has wrapped to `16566`; the elapsed computation still yields `16666`. -/
theorem claim_C3_witness :
    4294967196 < ULONG_MOD ∧ 16666 < ULONG_MOD ∧
    elapsedMicros ((4294967196 + 16666) % ULONG_MOD) 4294967196 = 16666 :=
  ⟨by decide, by decide, (claim_C3_wraparound 4294967196 16666 (by decide) (by decide)).1⟩

/-- **C5.** For every sample at or below the dead-zone threshold
(`throttlePoints[0] = 220` in LUT mode, `THROTTLE_MIN = 220` in fixed mode),
one loop pass computes the zero sentinel frequency, forces the PAS pin low and
resets the level flag to false, in all three sketches. -/
theorem claim_C5_dead_zone (pas : V3.PASState) (st : Fixed.FixedState)
    (lt : LUTv.LUTState) (s : Int) (cur : Nat)
    (hLUT : s ≤ V3.throttlePoints.getD 0 0) (hFix : s ≤ Fixed.THROTTLE_MIN) :
    (V3.loopPass pas s cur).1.currentFrequency = 0 ∧
    (V3.loopPass pas s cur).2 = some false ∧
    (V3.loopPass pas s cur).1.outputHigh = false ∧
    (Fixed.loopPass st s cur).2 = some false ∧
    (Fixed.loopPass st s cur).1.pasState = false ∧
    (LUTv.loopPass lt s cur).2 = some false ∧
    (LUTv.loopPass lt s cur).1.pasState = false := by
  have hnl : ¬ V3.throttlePoints.getD 0 0 < s := not_lt.mpr hLUT
  have hnf : ¬ Fixed.THROTTLE_MIN < s := not_lt.mpr hFix
  have hnl2 : ¬ LUTv.throttlePoints.getD 0 0 < s := hnl
  have hproc : V3.processThrottleInput pas s = V3.updatePASTimings pas 0 := by
    unfold V3.processThrottleInput
    rw [if_neg hnl]
  have hfreq : (V3.updatePASTimings pas 0).currentFrequency = 0 := by
    simp [V3.updatePASTimings]
  have hlp : V3.loopPass pas s cur =
      ({ V3.updatePASTimings pas 0 with outputHigh := false }, some false) := by
    unfold V3.loopPass
    rw [hproc]
    unfold V3.updatePASSignal
    rw [if_pos (by simp [hfreq])]
  refine ⟨?_, ?_, ?_, ?_, ?_, ?_, ?_⟩
  · rw [hlp]; exact hfreq
  · rw [hlp]
  · rw [hlp]
  · unfold Fixed.loopPass; rw [if_neg hnf]
  · unfold Fixed.loopPass; rw [if_neg hnf]
  · unfold LUTv.loopPass; rw [if_neg hnl2]
  · unfold LUTv.loopPass; rw [if_neg hnl2]

/-- Witness for C5 at sample `100` (the spec scenario): frequency sentinel `0`,
pin forced low, level flag cleared, in all three variants. -/
theorem claim_C5_witness :
    (100 : Int) ≤ V3.throttlePoints.getD 0 0 ∧ (100 : Int) ≤ Fixed.THROTTLE_MIN ∧
    (V3.loopPass V3.initialPAS 100 777).1.currentFrequency = 0 ∧
    (V3.loopPass V3.initialPAS 100 777).2 = some false ∧
    (Fixed.loopPass ⟨true, 0⟩ 100 777).2 = some false :=
  ⟨by decide, by decide,
    (claim_C5_dead_zone V3.initialPAS ⟨true, 0⟩ ⟨true, 0⟩ 100 777 (by decide) (by decide)).1,
    (claim_C5_dead_zone V3.initialPAS ⟨true, 0⟩ ⟨true, 0⟩ 100 777 (by decide) (by decide)).2.1,
    (claim_C5_dead_zone V3.initialPAS ⟨true, 0⟩ ⟨true, 0⟩ 100 777 (by decide) (by decide)).2.2.2.1⟩

/-- **C7 counterexample.** With the fixed calibration and sample `520`, the
mapped frequency is `15` Hz but the derived period is `1000000 / 15 = 66666`
microseconds (integer division), not the `66667` claimed; likewise the low
hold time is `50000`, not `50001`. -/
theorem claim_C7_counterexample :
    Fixed.fixedFrequency 520 = 15 ∧
    Fixed.totalPeriodMicros (Fixed.fixedFrequency 520) ≠ 66667 ∧
    Fixed.lowTimeMicros (Fixed.totalPeriodMicros (Fixed.fixedFrequency 520)) ≠ 50001 := by
  decide

/-- **C7 (amended).** With `THROTTLE_MIN=220, THROTTLE_MAX=820, MIN_FREQUENCY=5,
MAX_FREQUENCY=25, DUTY_CYCLE=25`, the sample `520` maps to `15` Hz, whose
period is `66666` µs, high hold time `16666` µs and low hold time `50000` µs. -/
theorem claim_C7_amended :
    Fixed.fixedFrequency 520 = 15 ∧
    Fixed.totalPeriodMicros 15 = 66666 ∧
    Fixed.highTimeMicros (Fixed.totalPeriodMicros 15) = 16666 ∧
    Fixed.lowTimeMicros (Fixed.totalPeriodMicros 15) = 50000 := by
  decide

/-- **C8 counterexample.** Starting from the initial state, a forced-off pass
(sample `100`, frequency `0`) leaves the stale `lastToggleMicros = 0` in place;
the very next pass with an active sample (`600`, frequency `18`) immediately
toggles the pin high because the stale elapsed time `6000000` exceeds the low
hold time — exactly the spurious first-pass toggle the claim rules out. -/
theorem claim_C8_counterexample :
    (V3.loopPass V3.initialPAS 100 1000000).1.lastToggleMicros = 0 ∧
    (V3.loopPass V3.initialPAS 100 1000000).2 = some false ∧
    (V3.loopPass (V3.loopPass V3.initialPAS 100 1000000).1 600 6000000).2 = some true ∧
    (V3.loopPass (V3.loopPass V3.initialPAS 100 1000000).1 600 6000000).1.lastToggleMicros
      = 6000000 := by
  decide

/-- **C8 (amended).** Passes spent in Forced-Off leave `lastToggleMicros` at
its stale value, and the first active pass evaluates the wraparound-safe
elapsed time against that stale timestamp: when it reaches the low hold time
the channel toggles high immediately and re-seeds
`lastToggleMicros := currentTime`, so only toggles after the reactivation are
timed from the reactivation instant. -/
theorem claim_C8_amended (pas : V3.PASState) (s1 s2 : Int) (cur1 cur2 : Nat)
    (hdead : s1 ≤ V3.throttlePoints.getD 0 0)
    (hact : V3.throttlePoints.getD 0 0 < s2)
    (hf : 0 < interpolate s2 V3.throttlePoints V3.frequencyPoints)
    (hel : (V3.updatePASTimings pas
        (interpolate s2 V3.throttlePoints V3.frequencyPoints)).lowDurationMicros
      ≤ elapsedMicros cur2 pas.lastToggleMicros) :
    (V3.loopPass pas s1 cur1).1.lastToggleMicros = pas.lastToggleMicros ∧
    (V3.loopPass (V3.loopPass pas s1 cur1).1 s2 cur2).2 = some true ∧
    (V3.loopPass (V3.loopPass pas s1 cur1).1 s2 cur2).1.lastToggleMicros = cur2 := by
  have hnl : ¬ V3.throttlePoints.getD 0 0 < s1 := not_lt.mpr hdead
  have hp0 : V3.updatePASTimings pas 0 = { pas with currentFrequency := 0 } := by
    simp [V3.updatePASTimings]
  have hp1 : (V3.loopPass pas s1 cur1).1 =
      { pas with currentFrequency := 0, outputHigh := false } := by
    unfold V3.loopPass V3.processThrottleInput
    rw [if_neg hnl, hp0]
    unfold V3.updatePASSignal
    rw [if_pos (by simp)]
  set f := interpolate s2 V3.throttlePoints V3.frequencyPoints with hfdef
  have hq : V3.processThrottleInput { pas with currentFrequency := 0, outputHigh := false } s2
      = V3.updatePASTimings { pas with currentFrequency := 0, outputHigh := false } f := by
    unfold V3.processThrottleInput
    rw [if_pos hact]
  have hqfields : V3.updatePASTimings { pas with currentFrequency := 0, outputHigh := false } f
      = { outputHigh := false, lastToggleMicros := pas.lastToggleMicros,
          highDurationMicros := (1000000 / f.toNat) * V3.DUTY_CYCLE / 100,
          lowDurationMicros := 1000000 / f.toNat - (1000000 / f.toNat) * V3.DUTY_CYCLE / 100,
          currentFrequency := f } := by
    unfold V3.updatePASTimings
    rw [if_pos hf]
  have hel' : 1000000 / f.toNat - (1000000 / f.toNat) * V3.DUTY_CYCLE / 100
      ≤ elapsedMicros cur2 pas.lastToggleMicros := by
    have h := hel
    unfold V3.updatePASTimings at h
    rw [if_pos hf] at h
    exact h
  have hsig : V3.updatePASSignal
      { outputHigh := false, lastToggleMicros := pas.lastToggleMicros,
        highDurationMicros := (1000000 / f.toNat) * V3.DUTY_CYCLE / 100,
        lowDurationMicros := 1000000 / f.toNat - (1000000 / f.toNat) * V3.DUTY_CYCLE / 100,
        currentFrequency := f } cur2
      = ({ outputHigh := true,
              lastToggleMicros := cur2,
              highDurationMicros := (1000000 / f.toNat) * V3.DUTY_CYCLE / 100,
              lowDurationMicros :=
                1000000 / f.toNat - (1000000 / f.toNat) * V3.DUTY_CYCLE / 100,
              currentFrequency := f }, some true) := by
    unfold V3.updatePASSignal
    rw [if_neg (by exact not_le.mpr hf), if_neg (by exact Bool.false_ne_true),
      if_pos (by exact hel')]
  refine ⟨by rw [hp1], ?_, ?_⟩
  · rw [hp1]
    unfold V3.loopPass
    rw [hq, hqfields, hsig]
  · rw [hp1]
    unfold V3.loopPass
    rw [hq, hqfields, hsig]

/-- Witness for C8 (amended): the concrete forced-off-then-reactivate run. -/
theorem claim_C8_witness :
    (100 : Int) ≤ V3.throttlePoints.getD 0 0 ∧
    (V3.loopPass (V3.loopPass V3.initialPAS 100 1000000).1 600 6000000).1.lastToggleMicros
      = 6000000 :=
  ⟨by decide,
    (claim_C8_amended V3.initialPAS 100 600 1000000 6000000 (by decide) (by decide)
      (by decide) (by decide)).2.2⟩

/-- **C10.** After every evaluation of `updatePASSignal` the internal level
flag equals the level last written to the PAS pin: any path that writes the
pin also sets the flag to the written level, any path that does not write
leaves the state untouched, so if the flag agreed with the pin before the call
it still agrees after it. -/
theorem claim_C10_flag_matches_pin (pas : V3.PASState) (cur : Nat) (pin : Bool)
    (hpin : pin = pas.outputHigh) :
    (∀ b, (V3.updatePASSignal pas cur).2 = some b →
      (V3.updatePASSignal pas cur).1.outputHigh = b) ∧
    ((V3.updatePASSignal pas cur).2 = none → (V3.updatePASSignal pas cur).1 = pas) ∧
    ((V3.updatePASSignal pas cur).2.getD pin = (V3.updatePASSignal pas cur).1.outputHigh) := by
  unfold V3.updatePASSignal
  split_ifs <;> simp_all

/-- Witness for C10 at the initial state: the forced-off write leaves the flag
equal to the written (low) level. -/
theorem claim_C10_witness :
    (V3.updatePASSignal V3.initialPAS 0).2.getD false
      = (V3.updatePASSignal V3.initialPAS 0).1.outputHigh :=
  (claim_C10_flag_matches_pin V3.initialPAS 0 false rfl).2.2

/-- **C4.** The curve mapper is non-decreasing for samples `s1 < s2` in the
active range: in fixed-calibration mode (`map` + `constrain`) and in LUT mode
for every table with non-decreasing inputs and outputs (the interpolation is
modelled exactly; truncation toward zero preserves monotonicity). -/
theorem claim_C4_monotonicity (s1 s2 : Int) (xs ys : List Int) (hs : s1 < s2) :
    (Fixed.THROTTLE_MIN < s1 → Fixed.fixedFrequency s1 ≤ Fixed.fixedFrequency s2) ∧
    (List.Chain' (· ≤ ·) xs → List.Chain' (· ≤ ·) ys → ys.length = xs.length →
      2 ≤ xs.length → interpolate s1 xs ys ≤ interpolate s2 xs ys) := by
  constructor
  · intro hmin
    unfold Fixed.fixedFrequency
    apply constrain_mono (by decide)
    unfold arduinoMap
    apply add_le_add_right
    apply Int.tdiv_le_tdiv_right (by decide)
    have h20 : (0 : Int) < Fixed.MAX_FREQUENCY - Fixed.MIN_FREQUENCY := by decide
    nlinarith [sub_le_sub_right (le_of_lt hs) Fixed.THROTTLE_MIN]
  · intro hcx hcy hlen h2
    exact interpolate_mono hcx hcy hlen h2 (le_of_lt hs)

/-- Witness for C4 at samples `300 < 600`: fixed mode maps them to `7 ≤ 17`,
LUT mode (repository table) to `4 ≤ 18`. -/
theorem claim_C4_witness :
    Fixed.fixedFrequency 300 ≤ Fixed.fixedFrequency 600 ∧
    interpolate 300 V3.throttlePoints V3.frequencyPoints
      ≤ interpolate 600 V3.throttlePoints V3.frequencyPoints :=
  ⟨(claim_C4_monotonicity 300 600 V3.throttlePoints V3.frequencyPoints (by decide)).1
      (by decide),
   (claim_C4_monotonicity 300 600 V3.throttlePoints V3.frequencyPoints (by decide)).2
      (by norm_num [V3.throttlePoints, List.chain'_cons])
      (by norm_num [V3.frequencyPoints, List.chain'_cons])
      (by decide) (by decide)⟩

/-- **C9.** For every table with non-decreasing inputs and outputs and every
sample, `interpolate` returns a value between the first and the last output
entry, so the last output is the effective frequency ceiling in LUT mode even
though no explicit clamp is applied. -/
theorem claim_C9_output_bounds (v : Int) (xs ys : List Int)
    (hcx : List.Chain' (· ≤ ·) xs) (hcy : List.Chain' (· ≤ ·) ys)
    (hlen : ys.length = xs.length) (h2 : 2 ≤ xs.length) :
    ys.getD 0 0 ≤ interpolate v xs ys ∧
    interpolate v xs ys ≤ ys.getD (ys.length - 1) 0 :=
  ⟨interpolate_lb hcx hcy hlen h2 v, interpolate_ub hcx hcy hlen h2 v⟩

/-- Witness for C9 on the repository table at sample `600`:
`0 ≤ interpolate = 18 ≤ 25`. -/
theorem claim_C9_witness :
    V3.frequencyPoints.getD 0 0 ≤ interpolate 600 V3.throttlePoints V3.frequencyPoints ∧
    interpolate 600 V3.throttlePoints V3.frequencyPoints
      ≤ V3.frequencyPoints.getD (V3.frequencyPoints.length - 1) 0 :=
  claim_C9_output_bounds 600 V3.throttlePoints V3.frequencyPoints
    (by norm_num [V3.throttlePoints, List.chain'_cons])
    (by norm_num [V3.frequencyPoints, List.chain'_cons])
    (by decide) (by decide)

/-- **C6 counterexample.** The table `inputs = [0, 5, 5]`, `outputs = [0, 3, 7]`
has two equal adjacent input points (the degenerate segment `[5,5]` with lower
output `3`); at sample `5` the code returns `7` (the upper boundary output),
not the degenerate segment's lower output `3`. -/
theorem claim_C6_counterexample :
    interpolate 5 [0, 5, 5] [0, 3, 7] = 7 ∧
    interpolate 5 [0, 5, 5] [0, 3, 7] ≠ 3 := by
  decide

/-- **C6 (amended).** For every table with non-decreasing inputs, the LUT
interpolation never performs a division by zero: every segment the search loop
selects for the interpolation formula is strictly increasing, so evaluation
short-circuits (at a boundary return or an earlier segment) before any
degenerate segment's division.  A sample equal to a degenerate input value
returns the output at the first table index carrying that value — the first
such degenerate segment's lower output — except that a sample reaching the
last input returns the last output instead. -/
theorem claim_C6_no_div_by_zero (v : Int) (xs ys : List Int)
    (hcx : List.Chain' (· ≤ ·) xs) :
    (∀ x0 y0 x1 y1, (∀ a, xs.head? = some a → a < v) →
      interpSearch v xs ys = some (x0, y0, x1, y1) → x0 < x1) ∧
    (∀ k, ys.length = xs.length → k + 1 < xs.length →
      xs.getD k 0 = xs.getD (k + 1) 0 →
      (k = 0 ∨ xs.getD (k - 1) 0 < xs.getD k 0) →
      (k = 0 ∨ xs.getD k 0 < xs.getD (xs.length - 1) 0) →
      v = xs.getD k 0 →
      interpolate v xs ys = ys.getD k 0) := by
  constructor
  · intro x0 y0 x1 y1 hh hs
    exact (interpSearch_strict hcx hh hs).2.2
  · intro k hlen hk hdeg hfirst hlast hv
    rcases hfirst with rfl | hprev
    · unfold interpolate
      rw [if_pos (le_of_eq hv)]
    · have hk1 : 1 ≤ k := by
        rcases Nat.eq_zero_or_pos k with rfl | h
        · norm_num at hprev
        · exact h
      rcases hlast with rfl | hlast2
      · exact absurd hk1 (by norm_num)
      · have h0 : xs.getD 0 0 < v := by
          have hmono := chain_le_getD_mono xs hcx (Nat.zero_le (k - 1)) (by omega)
          omega
        have hlast3 : v < xs.getD (xs.length - 1) 0 := by omega
        unfold interpolate
        rw [if_neg (not_le.mpr h0), if_neg (not_le.mpr hlast3),
          interpSearch_knot k xs ys hcx hlen hk1 (by omega) hprev hv]
        rw [hv]
        exact interpSeg_knot (ne_of_lt hprev)

/-- Witness for C6 (amended): on `inputs = [0, 5, 5, 10]`,
`outputs = [0, 3, 7, 10]`, the sample `5` hits the interior degenerate pair at
indices `1, 2` and returns the lower output `outputs[1] = 3` without dividing
by zero. -/
theorem claim_C6_witness :
    interpolate 5 [0, 5, 5, 10] [0, 3, 7, 10] = ([0, 3, 7, 10] : List Int).getD 1 0 :=
  (claim_C6_no_div_by_zero 5 [0, 5, 5, 10] [0, 3, 7, 10] (by norm_num [List.chain'_cons])).2 1
    (by decide) (by decide) (by decide) (by decide) (by decide) (by decide)
